import Mathlib

/-!
Verification of the StockTrader repository (StockFilter.py and
QuandlStockFilter.py): a shallow embedding of its pagination, screening,
risk-assessment, table-cleaning and fuzzy-search logic, with theorems
settling the specification claims.

Modelling conventions:
* Calendar time is counted in days since 1970-01-01 (a Thursday).  Python
  datetime values carry sub-day precision, so time points are rationals
  and timedelta arithmetic is exact rational arithmetic; the truncation
  np.datetime64(x, "D") is Int.floor.
* Python float arithmetic is modelled exactly over the rationals.
* pandas NaN entries are modelled as none : Option.
-/

namespace StockTrader

set_option maxRecDepth 100000

/-! ## Definitions: date-range paginator (PriceHistory, StockFilter.py) -/

/-- True when day number d (days since 1970-01-01, a Thursday) falls on a
weekday Monday..Friday, the default np.busday calendar. -/
def isWeekday (d : Int) : Bool :=
  (d + 3) % 7 < 5

/-- np.busday_count s e: signed count of weekdays in the half-open
interval from s (inclusive) to e (exclusive). -/
def busday_count (s e : Int) : Int :=
  if s ≤ e then
    (((List.range (e - s).toNat).filter (fun i => isWeekday (s + (i : Int)))).length : Int)
  else
    -(((List.range (s - e).toNat).filter (fun i => isWeekday (e + (i : Int)))).length : Int)

/-- PriceHistory.check (StockFilter.py lines 81-89): True when the range
spans more than 100 business days, the per-page limit of the scraped
source. -/
def check (s e : Int) : Bool :=
  decide (100 < busday_count s e)

/-- PriceHistory.calc_pages (lines 91-97): ceil(busdays / 100) pages when
the limit is exceeded, otherwise one page.  math.ceil on the float
quotient is modelled as the exact rational ceiling. -/
def calc_pages (response : Bool) (s e : Int) : ℕ :=
  if response then (⌈(busday_count s e : ℚ) / 100⌉).toNat else 1

/-- Loop of the PriceHistory.calc_start generator (lines 99-105): while
pages > 0, advance s by calendar_days and yield the advanced value. -/
def calc_start_go (calendar_days : ℚ) : ℕ → ℚ → List ℚ
  | 0, _ => []
  | pages + 1, s => (s + calendar_days) :: calc_start_go calendar_days pages (s + calendar_days)

/-- PriceHistory.calc_start: yields pages boundary points, stepping from
s by (e - s) / pages each time.  Note the first yielded value is
s + (e - s) / pages, never s itself. -/
def calc_start (pages : ℕ) (s e : ℚ) : List ℚ :=
  calc_start_go ((e - s) / (pages : ℚ)) pages s

/-- PriceHistory.starts (lines 107-114): collect every yielded boundary,
then append the true end date.  The break guard in the source compares
the callers unchanged pages parameter (the generator decrements its own
local copy), so it never fires when pages is at least 1, and when
pages = 0 the generator yields nothing; either way the loop keeps every
yielded value. -/
def starts (pages : ℕ) (s e : ℚ) : List ℚ :=
  calc_start pages s e ++ [e]

/-- PriceHistory.getStarts (lines 116-120): check the business-day span
(dates truncated to whole days as np.datetime64(x, "D") does), derive the
page count, and produce the boundary list from the untruncated dates. -/
def getStarts (s e : ℚ) : List ℚ :=
  starts (calc_pages (check ⌊s⌋ ⌊e⌋) ⌊s⌋ ⌊e⌋) s e

/-- PriceHistory.urls (lines 130-146) builds one URL per consecutive
boundary pair (starts[d], starts[d+1]); the pairs themselves model the
pages, the URL string formatting being irrelevant to the claims. -/
def pagePairs (s e : ℚ) : List (ℚ × ℚ) :=
  (getStarts s e).zip (getStarts s e).tail

/-! ## Definitions: screening loop (main, get_stock_list) -/

/-- Python exception kinds relevant to the per-ticker loop in main
(StockFilter.py lines 166-193).  The source catches KeyError, TypeError
and IndexError; a transport failure inside requests.get raises
ConnectionError and a response with no parseable table makes
pd.read_html raise ValueError, neither of which has an except clause. -/
inductive PyExc where
  | keyError
  | typeError
  | indexError
  | connectionError
  | valueError
  deriving DecidableEq, Repr

/-- True exactly for the exception kinds with an except clause in main. -/
def caught_in_main (e : PyExc) : Bool :=
  match e with
  | .keyError => true
  | .typeError => true
  | .indexError => true
  | _ => false

/-- Embedding of the Python str.split of get_stock_list on the one-char
separator, on character lists: maximal runs between occurrences of the
bar character, always at least one (possibly empty) piece. -/
def splitPipe : List Char → List (List Char)
  | [] => [[]]
  | c :: cs =>
    let r := splitPipe cs
    if c = '|' then [] :: r
    else (c :: r.headD []) :: r.tail

/-- line.split on the bar separator, as a String function.  The library
String.splitOn is defined by well-founded recursion and does not reduce
inside the kernel, so the split is embedded structurally instead. -/
def split_on_pipe (s : String) : List String :=
  (splitPipe s.data).map String.mk

/-- get_stock_list (lines 159-163): skip the header line, take the first
pipe-delimited field of every remaining line, and drop the footer line. -/
def get_stock_list (lines : List String) : List String :=
  ((lines.drop 1).map (fun l => (split_on_pipe l).headD "")).dropLast

/-- Per-ticker loop of main (lines 168-191).  The whole
fetch/parse/assemble/assess pipeline body for one ticker either produces
the risk statistic or raises an exception, so it is modelled as a
function into Except; the loop appends (ticker, statistic) when the
statistic reaches the threshold, skips the ticker when a caught
exception kind is raised, and aborts wholesale on any other exception,
exactly as an uncaught Python exception would leave the for loop. -/
def screenLoop (pipeline : String → Except PyExc ℚ) (threshold : ℚ) :
    List String → List (String × ℚ) → Except PyExc (List (String × ℚ))
  | [], acc => .ok acc
  | t :: rest, acc =>
    match pipeline t with
    | .ok a =>
      screenLoop pipeline threshold rest (if a ≥ threshold then acc ++ [(t, a)] else acc)
    | .error e =>
      if caught_in_main e then screenLoop pipeline threshold rest acc
      else .error e

/-- Ascending-by-statistic comparison used by green_light.sort with key
lambda x: x[1]. -/
def byStat (x y : String × ℚ) : Prop :=
  x.2 ≤ y.2

instance : DecidableRel byStat :=
  fun x y => inferInstanceAs (Decidable (x.2 ≤ y.2))

instance : IsTotal (String × ℚ) byStat :=
  ⟨fun x y => le_total x.2 y.2⟩

instance : IsTrans (String × ℚ) byStat :=
  ⟨fun _ _ _ h h2 => le_trans h h2⟩

/-- main (lines 166-193): evaluate the first 100 tickers of the parsed
list, collect accepted (ticker, statistic) pairs, and sort ascending by
statistic.  Python list.sort is a stable ascending sort; insertion sort
agrees with it on ordering and membership, and no claim depends on the
order of entries with tied statistics. -/
def main (pipeline : String → Except PyExc ℚ) (lines : List String) (threshold : ℚ) :
    Except PyExc (List (String × ℚ)) :=
  (screenLoop pipeline threshold ((get_stock_list lines).take 100) []).map
    (fun l => l.insertionSort byStat)

/-- Ticker list file contents used by the concrete screening inputs: a
header line, one ticker line, and the footer line. -/
def sampleLines : List String :=
  ["Symbol|Security Name", "AAA|Alpha", "File Creation Time"]

/-- Pipeline raising a transport failure (ConnectionError) on every
ticker. -/
def pipelineConn : String → Except PyExc ℚ :=
  fun _ => Except.error PyExc.connectionError

/-- Pipeline raising KeyError on every ticker. -/
def pipelineKey : String → Except PyExc ℚ :=
  fun _ => Except.error PyExc.keyError

/-- Pipeline assessing every ticker at statistic 1. -/
def pipelineOne : String → Except PyExc ℚ :=
  fun _ => Except.ok 1

/-- Pipeline assessing every ticker at statistic 0. -/
def pipelineZero : String → Except PyExc ℚ :=
  fun _ => Except.ok 0

/-! ## Definitions: risk assessor (bootstrap_risk_assessment) -/

/-- Series.pct_change as used at StockFilter.py line 151: the first
entry is NaN, and entry i for i > 0 is the fractional change
p i / p (i-1) - 1 from the previous value.  A zero previous value gives
a float NaN or infinity, modelled as none; the claims about the
assessor only concern positive price series, where this never occurs. -/
def pct_change (xs : List ℚ) : List (Option ℚ) :=
  match xs with
  | [] => []
  | _ :: _ =>
    none :: (xs.zip xs.tail).map (fun p => if p.1 = 0 then none else some (p.2 / p.1 - 1))

/-- Values of a series in ascending order, as np.percentile sorts them
before interpolating. -/
def sortedVals (xs : List ℚ) : List ℚ :=
  xs.insertionSort (fun a b => a ≤ b)

/-- Linear interpolation at quantile q of the ascending value list v:
with h = q * (len v - 1) and i = floor h, interpolate between the values
at indices i and i + 1 (the latter clipped to the last index).  This is
the default interpolation of Series.quantile for q in [0, 1]. -/
def interp (v : List ℚ) (q : ℚ) : ℚ :=
  v.getD (⌊q * ((v.length : ℚ) - 1)⌋).toNat 0 +
    (q * ((v.length : ℚ) - 1) - ((⌊q * ((v.length : ℚ) - 1)⌋).toNat : ℚ)) *
      (v.getD (min ((⌊q * ((v.length : ℚ) - 1)⌋).toNat + 1) (v.length - 1)) 0 -
        v.getD (⌊q * ((v.length : ℚ) - 1)⌋).toNat 0)

/-- Series.quantile with the default linear interpolation: NaN entries
are skipped by the caller (the list passed in is NaN-free), and an empty
value list gives NaN, modelled as none. -/
def quantile (xs : List ℚ) (q : ℚ) : Option ℚ :=
  if sortedVals xs = [] then none
  else some (interp (sortedVals xs) q)

/-- bootstrap_risk_assessment (lines 149-156): the daily-return series
of the adjusted-close column and its (1 - confidence) quantile.  The
column values are taken after the pd.to_numeric coercion and dropna of
line 150, so the input is the numeric price list; quantile skips the
NaN leading entry of pct_change (the filterMap).  The plot branch only
draws a diagnostic and cannot change the returned value. -/
def bootstrap_risk_assessment (adjClose : List ℚ) (confidence : ℚ) : Option ℚ :=
  quantile ((pct_change adjClose).filterMap id) (1 - confidence)

/-! ## Definitions: fragment cleaning (PriceHistory.clean_history) -/

/-- One row of a freshly parsed raw table fragment: the Date cell and
the remaining cells. -/
structure RawRow where
  date : String
  cells : List String
  deriving DecidableEq, Repr

/-- Modelled from the spec: the synthetic trailer row of a scraped
fragment, a footer or legend row rather than a trading day (in the
scraped Yahoo table its text begins with an asterisk instead of a
date).  clean_history itself never inspects row contents, so this
predicate only serves to state the claim about trailer-free fragments. -/
def is_trailer (r : RawRow) : Bool :=
  r.date.data.headD ' ' = '*'

/-- PriceHistory.clean_history (lines 65-69): price_history.drop of
label len - 1 removes the row labelled len - 1; on the default integer
index of a freshly parsed fragment that is the structurally last row,
whatever its content.  set_index then makes the Date cell the row key. -/
def clean_history (rows : List RawRow) : List (String × List String) :=
  rows.dropLast.map (fun r => (r.date, r.cells))

/-- A fragment reindexed by Date with no row dropped: what an unchanged
return value of clean_history would look like. -/
def indexed_by_date (rows : List RawRow) : List (String × List String) :=
  rows.map (fun r => (r.date, r.cells))

/-- A concrete already-clean fragment: two trading-day rows, no trailer. -/
def cleanFragment : List RawRow :=
  [⟨"Jan 02, 2020", ["74.06", "75.15"]⟩, ⟨"Jan 03, 2020", ["74.29", "74.36"]⟩]

/-! ## Definitions: fuzzy metadata search (QuandlStockFilter.py) -/

/-- One entry of the match list of stock_search: the fuzzy score (the
Ratio variable of the source) paired with the metadata row. -/
structure MatchEntry where
  score : ℕ
  row : List String
  deriving DecidableEq, Repr

/-- str.lower, embedded structurally (the library String.map does not
reduce inside the kernel).  Char.toLower lowercases ASCII letters, which
covers the metadata involved in the claims. -/
def lower (s : String) : String :=
  String.mk (s.data.map Char.toLower)

/-- Score of one metadata row against the query (QuandlStockFilter.py
lines 20-21): fuzz.ratio of the lowercased listing name (column 1 of the
row) and the lowercased query.  fuzz.ratio itself is an external library
function, passed in as the parameter fr; metadata rows always carry at
least two columns, so the default of getD never surfaces. -/
def row_score (fr : String → String → ℕ) (name : String) (row : List String) : ℕ :=
  fr (lower (row.getD 1 "")) (lower name)

/-- Loop body of stock_search (lines 22-29): a strictly greater score
wipes the match list in favour of the new row (del match[1:] plus the
in-place overwrite of match[0]); an equal score appends; a smaller score
leaves the list unchanged. -/
def search_step (fr : String → String → ℕ) (name : String)
    (acc : List MatchEntry) (row : List String) : List MatchEntry :=
  if row_score fr name row > (acc.headD ⟨0, []⟩).score then
    [⟨row_score fr name row, row⟩]
  else if row_score fr name row = (acc.headD ⟨0, []⟩).score then
    acc ++ [⟨row_score fr name row, row⟩]
  else acc

/-- stock_search (lines 7-30): skip the csv header row, then fold the
data rows through search_step starting from the placeholder match list
[[0, []]]. -/
def stock_search (fr : String → String → ℕ) (name : String)
    (table : List (List String)) : List MatchEntry :=
  (table.drop 1).foldl (search_step fr name) [⟨0, []⟩]

/-- Maximum row score over a list of rows; 0 when there are none,
matching the placeholder score stock_search starts from. -/
def max_score (fr : String → String → ℕ) (name : String)
    (rows : List (List String)) : ℕ :=
  (rows.map (row_score fr name)).foldr max 0

/-- Exact-match scorer standing in for fuzz.ratio on the concrete search
inputs: 100 for identical strings and 0 otherwise — the very scores
fuzz.ratio gives on the strings used (identical strings score 100, and
strings with no characters in common, such as abc against xyz, score 0). -/
def fuzzExact : String → String → ℕ :=
  fun a b => if a = b then 100 else 0

/-- Concrete metadata table: a csv header row and one data row with code
1 and listing name abc. -/
def sampleTable : List (List String) :=
  [["code", "name"], ["1", "abc"]]

/-! ## Theorems: paginator (C1, C3, C4) -/

theorem length_calc_start_go (cd : ℚ) : ∀ (p : ℕ) (s : ℚ), (calc_start_go cd p s).length = p
  | 0, _ => rfl
  | p + 1, s => by
    simp [calc_start_go, length_calc_start_go cd p]

theorem length_calc_start (pages : ℕ) (s e : ℚ) : (calc_start pages s e).length = pages :=
  length_calc_start_go _ pages s

theorem length_getStarts (s e : ℚ) :
    (getStarts s e).length = calc_pages (check ⌊s⌋ ⌊e⌋) ⌊s⌋ ⌊e⌋ + 1 := by
  simp [getStarts, starts, length_calc_start]

theorem length_pagePairs (s e : ℚ) :
    (pagePairs s e).length = calc_pages (check ⌊s⌋ ⌊e⌋) ⌊s⌋ ⌊e⌋ := by
  have h := length_getStarts s e
  simp only [pagePairs, List.length_zip, List.length_tail, h]
  omega

/-- C3: for a valid range spanning more than 100 business days, the
paginator produces ceil(busdays / 100) + 1 boundary dates, hence exactly
ceil(busdays / 100) boundary pairs (pages), and the final boundary equals
the requested end exactly. -/
theorem paginator_page_count (s e : ℚ) (hse : s ≤ e)
    (hbd : 100 < busday_count ⌊s⌋ ⌊e⌋) :
    (getStarts s e).length = (⌈(busday_count ⌊s⌋ ⌊e⌋ : ℚ) / 100⌉).toNat + 1 ∧
    (pagePairs s e).length = (⌈(busday_count ⌊s⌋ ⌊e⌋ : ℚ) / 100⌉).toNat ∧
    (getStarts s e).getLast? = some e := by
  have hc : check ⌊s⌋ ⌊e⌋ = true := by
    simp [check, hbd]
  refine ⟨?_, ?_, ?_⟩
  · rw [length_getStarts, hc]
    simp [calc_pages]
  · rw [length_pagePairs, hc]
    simp [calc_pages]
  · simp [getStarts, starts]

/-- C3 witness: the range from day 0 (1970-01-01) to day 200 spans 142
business days, giving 2 pages and 3 boundaries, the last equal to 200. -/
theorem paginator_page_count_witness :
    (getStarts (0 : ℚ) 200).length = (⌈(busday_count ⌊(0 : ℚ)⌋ ⌊(200 : ℚ)⌋ : ℚ) / 100⌉).toNat + 1 ∧
    (pagePairs (0 : ℚ) 200).length = (⌈(busday_count ⌊(0 : ℚ)⌋ ⌊(200 : ℚ)⌋ : ℚ) / 100⌉).toNat ∧
    (getStarts (0 : ℚ) 200).getLast? = some 200 :=
  paginator_page_count 0 200 (by norm_num)
    (by simp only [Int.floor_zero, Int.floor_ofNat]; decide)

/-- C4: for a valid range of at most 100 business days the paginator
produces exactly one boundary pair (one page, one URL), and when
start = end that single pair is exactly (start, end). -/
theorem paginator_single_page (s e : ℚ) (hse : s ≤ e)
    (hbd : busday_count ⌊s⌋ ⌊e⌋ ≤ 100) :
    (pagePairs s e).length = 1 ∧ (s = e → pagePairs s e = [(s, e)]) := by
  have hc : check ⌊s⌋ ⌊e⌋ = false := by
    simp [check]
    omega
  constructor
  · rw [length_pagePairs, hc]
    simp [calc_pages]
  · intro hse'
    subst hse'
    simp [pagePairs, getStarts, hc, calc_pages, starts, calc_start, calc_start_go]

/-- C4 witness: start = end = day 0 spans zero business days and yields
the single boundary pair (0, 0). -/
theorem paginator_single_page_witness :
    (pagePairs (0 : ℚ) 0).length = 1 ∧ ((0 : ℚ) = 0 → pagePairs (0 : ℚ) 0 = [(0, 0)]) :=
  paginator_single_page 0 0 le_rfl (by simp only [Int.floor_zero]; decide)

/-- C1 at a concrete input: start = 2020-01-06 (day 18267, a Monday) and
end = 2020-01-10 (day 18271) span 4 business days, so a single page is
planned; but the generator advances before its first yield, so the only
boundary pair is (end, end) rather than (start, end): the first page does
not begin at start and the sub-range [start, end) is covered by no page,
contradicting both the claim and the urls docstring promise of URLs
complete with start and end dates for each block. -/
theorem paginator_first_page_misses_start :
    pagePairs (18267 : ℚ) 18271 = [((18271 : ℚ), (18271 : ℚ))] ∧
    (18271 : ℚ) ≠ (18267 : ℚ) := by
  constructor
  · have hc : check ⌊(18267 : ℚ)⌋ ⌊(18271 : ℚ)⌋ = false := by
      simp only [Int.floor_ofNat]
      decide
    simp only [pagePairs, getStarts, starts, calc_start, calc_start_go, hc, calc_pages,
      if_false, Bool.false_eq_true, List.cons_append, List.nil_append, List.tail_cons,
      List.zip_cons_cons, List.zip_nil_right]
    norm_num
  · norm_num

/-! ## Theorems: screening loop (C2, C5, C10) -/

theorem screenLoop_mem (pipeline : String → Except PyExc ℚ) (th : ℚ) :
    ∀ (ts : List String) (acc res : List (String × ℚ)),
      screenLoop pipeline th ts acc = Except.ok res →
      ∀ p : String × ℚ,
        (p ∈ res ↔ p ∈ acc ∨ (p.1 ∈ ts ∧ pipeline p.1 = Except.ok p.2 ∧ p.2 ≥ th)) := by
  intro ts
  induction ts with
  | nil =>
    intro acc res hres p
    simp only [screenLoop] at hres
    cases hres
    simp
  | cons t rest ih =>
    intro acc res hres p
    cases hpt : pipeline t with
    | ok a =>
      simp only [screenLoop, hpt] at hres
      by_cases hth : a ≥ th
      · rw [if_pos hth] at hres
        rw [ih _ _ hres p]
        simp only [List.mem_append, List.mem_cons, List.not_mem_nil, or_false]
        constructor
        · rintro ((hp | hp) | ⟨h1, h2, h3⟩)
          · exact Or.inl hp
          · subst hp
            exact Or.inr ⟨Or.inl rfl, hpt, hth⟩
          · exact Or.inr ⟨Or.inr h1, h2, h3⟩
        · rintro (hp | ⟨h1 | h1, h2, h3⟩)
          · exact Or.inl (Or.inl hp)
          · refine Or.inl (Or.inr ?_)
            rw [h1, hpt] at h2
            injection h2 with h4
            exact Prod.ext_iff.mpr ⟨h1, h4.symm⟩
          · exact Or.inr ⟨h1, h2, h3⟩
      · rw [if_neg hth] at hres
        rw [ih _ _ hres p]
        simp only [List.mem_cons]
        constructor
        · rintro (hp | ⟨h1, h2, h3⟩)
          · exact Or.inl hp
          · exact Or.inr ⟨Or.inr h1, h2, h3⟩
        · rintro (hp | ⟨h1 | h1, h2, h3⟩)
          · exact Or.inl hp
          · exfalso
            rw [h1, hpt] at h2
            injection h2 with h4
            exact hth (h4 ▸ h3)
          · exact Or.inr ⟨h1, h2, h3⟩
    | error e =>
      simp only [screenLoop, hpt] at hres
      by_cases hc : caught_in_main e = true
      · rw [if_pos hc] at hres
        rw [ih _ _ hres p]
        simp only [List.mem_cons]
        constructor
        · rintro (hp | ⟨h1, h2, h3⟩)
          · exact Or.inl hp
          · exact Or.inr ⟨Or.inr h1, h2, h3⟩
        · rintro (hp | ⟨h1 | h1, h2, h3⟩)
          · exact Or.inl hp
          · rw [h1, hpt] at h2
            cases h2
          · exact Or.inr ⟨h1, h2, h3⟩
      · rw [if_neg hc] at hres
        cases hres

theorem screenLoop_ok_of_caught (pipeline : String → Except PyExc ℚ) (th : ℚ)
    (hcaught : ∀ t e, pipeline t = Except.error e → caught_in_main e = true) :
    ∀ (ts : List String) (acc : List (String × ℚ)),
      ∃ res, screenLoop pipeline th ts acc = Except.ok res := by
  intro ts
  induction ts with
  | nil =>
    intro acc
    exact ⟨acc, rfl⟩
  | cons t rest ih =>
    intro acc
    cases hpt : pipeline t with
    | ok a =>
      obtain ⟨res, hres⟩ := ih (if a ≥ th then acc ++ [(t, a)] else acc)
      exact ⟨res, by simp only [screenLoop, hpt]; exact hres⟩
    | error e =>
      obtain ⟨res, hres⟩ := ih acc
      refine ⟨res, ?_⟩
      simp only [screenLoop, hpt, hcaught t e hpt, if_true]
      exact hres

/-- C2 counterexample: a transport failure (ConnectionError from
requests, the transport kind of the spec error taxonomy) raised while
fetching the single listed ticker matches no except clause of main, so
it propagates out of main and aborts the batch instead of being
converted into a skip. -/
theorem main_propagates_transport_error :
    main pipelineConn sampleLines 0 = Except.error PyExc.connectionError := by
  rfl

/-- C2 amended: when every failure the per-ticker pipeline raises is one
of the kinds main actually catches (KeyError, TypeError, IndexError),
no exception propagates out of main, and every returned entry comes from
a ticker whose pipeline succeeded, so each failing ticker is skipped and
absent from the result. -/
theorem main_isolates_caught_failures (pipeline : String → Except PyExc ℚ)
    (lines : List String) (th : ℚ)
    (hcaught : ∀ t e, pipeline t = Except.error e → caught_in_main e = true) :
    ∃ res, main pipeline lines th = Except.ok res ∧
      ∀ p ∈ res, pipeline p.1 = Except.ok p.2 := by
  obtain ⟨res0, hres0⟩ :=
    screenLoop_ok_of_caught pipeline th hcaught ((get_stock_list lines).take 100) []
  refine ⟨res0.insertionSort byStat, ?_, ?_⟩
  · simp [main, hres0, Except.map]
  · intro p hp
    rw [List.mem_insertionSort] at hp
    rcases (screenLoop_mem pipeline th _ [] res0 hres0 p).mp hp with h | ⟨_, h2, _⟩
    · simp at h
    · exact h2

/-- C2 amended witness: a pipeline failing with KeyError on every ticker
yields a normally returned (empty) batch. -/
theorem main_isolates_caught_failures_witness :
    ∃ res, main pipelineKey sampleLines 0 = Except.ok res ∧
      ∀ p ∈ res, pipelineKey p.1 = Except.ok p.2 :=
  main_isolates_caught_failures pipelineKey sampleLines 0
    (fun _ e he => by injection he with h; subst h; rfl)

/-- C5: when main returns a batch result, a pair (ticker, statistic) is
in the result iff the ticker is among the evaluated tickers, its
pipeline produced exactly that statistic, and the statistic is at least
the threshold; and the result is sorted ascending by statistic. -/
theorem main_result_spec (pipeline : String → Except PyExc ℚ)
    (lines : List String) (th : ℚ) (res : List (String × ℚ))
    (hres : main pipeline lines th = Except.ok res) :
    (∀ p : String × ℚ,
        p ∈ res ↔ p.1 ∈ (get_stock_list lines).take 100 ∧
          pipeline p.1 = Except.ok p.2 ∧ p.2 ≥ th) ∧
    res.Sorted byStat := by
  unfold main at hres
  cases hsl : screenLoop pipeline th ((get_stock_list lines).take 100) [] with
  | ok res0 =>
    rw [hsl] at hres
    simp only [Except.map] at hres
    injection hres with hres
    subst hres
    constructor
    · intro p
      rw [List.mem_insertionSort]
      rw [screenLoop_mem pipeline th _ [] res0 hsl p]
      simp
    · exact List.sorted_insertionSort byStat res0
  | error e =>
    rw [hsl] at hres
    simp only [Except.map] at hres
    cases hres

/-- C5 witness: a single-ticker batch with statistic 1 and threshold 0
returns the sorted singleton (AAA, 1). -/
theorem main_result_spec_witness :
    (∀ p : String × ℚ,
        p ∈ [(("AAA" : String), (1 : ℚ))] ↔
          p.1 ∈ (get_stock_list sampleLines).take 100 ∧
          pipelineOne p.1 = Except.ok p.2 ∧ p.2 ≥ (0 : ℚ)) ∧
    List.Sorted byStat [(("AAA" : String), (1 : ℚ))] :=
  main_result_spec pipelineOne sampleLines 0 [(("AAA" : String), (1 : ℚ))] (by rfl)

/-- C10: every entry of a returned batch comes from the first 100 entries
of the parsed ticker list (header skipped, footer dropped); a ticker
outside that prefix is never evaluated and never returned, whatever its
statistic would have been. -/
theorem main_first_hundred_only (pipeline : String → Except PyExc ℚ)
    (lines : List String) (th : ℚ) (res : List (String × ℚ))
    (hres : main pipeline lines th = Except.ok res) :
    ∀ p ∈ res, p.1 ∈ (get_stock_list lines).take 100 := by
  unfold main at hres
  cases hsl : screenLoop pipeline th ((get_stock_list lines).take 100) [] with
  | ok res0 =>
    rw [hsl] at hres
    simp only [Except.map] at hres
    injection hres with hres
    subst hres
    intro p hp
    rw [List.mem_insertionSort] at hp
    rcases (screenLoop_mem pipeline th _ [] res0 hsl p).mp hp with h | ⟨h1, _, _⟩
    · simp at h
    · exact h1
  | error e =>
    rw [hsl] at hres
    simp only [Except.map] at hres
    cases hres

/-- C10 witness: the one entry returned by the sample single-ticker
batch is among the first 100 parsed tickers. -/
theorem main_first_hundred_only_witness :
    ((("AAA" : String), (0 : ℚ))).1 ∈ (get_stock_list sampleLines).take 100 :=
  main_first_hundred_only pipelineZero sampleLines 0
    [(("AAA" : String), (0 : ℚ))] (by rfl) (("AAA" : String), (0 : ℚ)) (by simp)

/-! ## Theorems: risk assessor (C7, C8) -/

theorem getD_of_all {l : List ℚ} {P : ℚ → Prop} (hP : P 0) (h : ∀ x ∈ l, P x) (i : ℕ) :
    P (l.getD i 0) := by
  cases hx : l[i]? with
  | none => simpa [List.getD_eq_getElem?_getD, hx] using hP
  | some x =>
    have hmem := h x (List.getElem?_mem hx)
    simpa [List.getD_eq_getElem?_getD, hx] using hmem

theorem sortedVals_ne_nil {xs : List ℚ} (hne : xs ≠ []) : sortedVals xs ≠ [] := by
  intro h
  apply hne
  have hperm := List.perm_insertionSort (fun a b : ℚ => a ≤ b) xs
  rw [sortedVals] at h
  rw [h] at hperm
  exact hperm.symm.eq_nil

theorem mem_sortedVals {xs : List ℚ} {x : ℚ} (hx : x ∈ sortedVals xs) : x ∈ xs :=
  (List.mem_insertionSort _).mp hx

theorem interp_all_zero (v : List ℚ) (q : ℚ) (hall : ∀ x ∈ v, x = 0) :
    interp v q = 0 := by
  have h0 : ∀ i : ℕ, v.getD i 0 = 0 :=
    fun i => getD_of_all (P := fun x => x = 0) rfl hall i
  simp only [interp, h0]
  ring

theorem interp_nonpos (v : List ℚ) (q : ℚ) (hq0 : 0 ≤ q) (hne : v ≠ [])
    (hall : ∀ x ∈ v, x ≤ 0) : interp v q ≤ 0 := by
  have hlen : 1 ≤ v.length := List.length_pos.mpr hne
  have hlen' : (1 : ℚ) ≤ (v.length : ℚ) := by exact_mod_cast hlen
  have hh0 : 0 ≤ q * ((v.length : ℚ) - 1) := by
    apply mul_nonneg hq0
    linarith
  have hfl0 : 0 ≤ ⌊q * ((v.length : ℚ) - 1)⌋ := Int.floor_nonneg.mpr hh0
  have hcast : (((⌊q * ((v.length : ℚ) - 1)⌋).toNat : ℕ) : ℚ) = (⌊q * ((v.length : ℚ) - 1)⌋ : ℚ) := by
    exact_mod_cast Int.toNat_of_nonneg hfl0
  have hf0 : 0 ≤ q * ((v.length : ℚ) - 1) - (((⌊q * ((v.length : ℚ) - 1)⌋).toNat : ℕ) : ℚ) := by
    rw [hcast]
    have := Int.floor_le (q * ((v.length : ℚ) - 1))
    linarith
  have hf1 : q * ((v.length : ℚ) - 1) - (((⌊q * ((v.length : ℚ) - 1)⌋).toNat : ℕ) : ℚ) ≤ 1 := by
    rw [hcast]
    have := Int.lt_floor_add_one (q * ((v.length : ℚ) - 1))
    linarith
  have hlo : v.getD (⌊q * ((v.length : ℚ) - 1)⌋).toNat 0 ≤ 0 :=
    getD_of_all (P := fun x => x ≤ 0) le_rfl hall _
  have hhi : v.getD (min ((⌊q * ((v.length : ℚ) - 1)⌋).toNat + 1) (v.length - 1)) 0 ≤ 0 :=
    getD_of_all (P := fun x => x ≤ 0) le_rfl hall _
  rw [interp]
  nlinarith [mul_nonneg hf0 (neg_nonneg.mpr hhi),
    mul_nonneg (sub_nonneg.mpr hf1) (neg_nonneg.mpr hlo)]

theorem quantile_of_all_zero (xs : List ℚ) (q : ℚ) (hne : xs ≠ [])
    (hall : ∀ x ∈ xs, x = 0) : quantile xs q = some 0 := by
  rw [quantile, if_neg (sortedVals_ne_nil hne)]
  rw [interp_all_zero (sortedVals xs) q (fun x hx => hall x (mem_sortedVals hx))]

theorem quantile_nonpos (xs : List ℚ) (q : ℚ) (hq0 : 0 ≤ q) (hne : xs ≠ [])
    (hall : ∀ x ∈ xs, x ≤ 0) : ∃ y, quantile xs q = some y ∧ y ≤ 0 := by
  refine ⟨interp (sortedVals xs) q, ?_, ?_⟩
  · rw [quantile, if_neg (sortedVals_ne_nil hne)]
  · exact interp_nonpos (sortedVals xs) q hq0 (sortedVals_ne_nil hne)
      (fun x hx => hall x (mem_sortedVals hx))

theorem zip_replicate_self (v : ℚ) :
    ∀ n : ℕ, (List.replicate (n + 1) v).zip (List.replicate n v) = List.replicate n (v, v)
  | 0 => rfl
  | n + 1 => by
    show (v :: List.replicate (n + 1) v).zip (v :: List.replicate n v) =
      (v, v) :: List.replicate n (v, v)
    rw [List.zip_cons_cons, zip_replicate_self v n]

theorem pct_change_replicate (n : ℕ) (v : ℚ) (hv : v ≠ 0) :
    (pct_change (List.replicate (n + 1) v)).filterMap id = List.replicate n 0 := by
  have hrep : List.replicate (n + 1) v = v :: List.replicate n v := List.replicate_succ v n
  rw [pct_change.eq_def]
  rw [hrep]
  simp only [List.tail_cons]
  rw [← hrep, zip_replicate_self v n]
  simp only [List.map_replicate, if_neg hv, div_self hv]
  norm_num

/-- C7: on a constant positive price series of at least two points every
daily return is zero, and the bootstrap risk assessment returns exactly
zero for every confidence level strictly between 0 and 1. -/
theorem assess_constant_returns_zero (n : ℕ) (v c : ℚ) (hn : 2 ≤ n) (hv : 0 < v)
    (hc0 : 0 < c) (hc1 : c < 1) :
    bootstrap_risk_assessment (List.replicate n v) c = some 0 := by
  obtain ⟨m, rfl⟩ : ∃ m, n = m + 2 := ⟨n - 2, by omega⟩
  rw [bootstrap_risk_assessment]
  rw [show m + 2 = (m + 1) + 1 from rfl, pct_change_replicate (m + 1) v hv.ne']
  apply quantile_of_all_zero
  · simp
  · intro x hx
    exact List.eq_of_mem_replicate hx

/-- C7 witness: the constant series of two prices 1 at confidence 1/2
assesses to exactly 0. -/
theorem assess_constant_returns_zero_witness :
    bootstrap_risk_assessment (List.replicate 2 (1 : ℚ)) (1 / 2) = some 0 :=
  assess_constant_returns_zero 2 1 (1 / 2) (by norm_num) (by norm_num)
    (by norm_num) (by norm_num)

theorem chain'_zip_tail {α : Type} {R : α → α → Prop} :
    ∀ {l : List α}, l.Chain' R → ∀ p ∈ l.zip l.tail, R p.1 p.2 := by
  intro l
  induction l with
  | nil =>
    intro _ p hp
    simp at hp
  | cons a l ih =>
    intro h p hp
    cases l with
    | nil => simp at hp
    | cons b l2 =>
      rw [List.chain'_cons] at h
      simp only [List.tail_cons, List.zip_cons_cons, List.mem_cons] at hp
      rcases hp with rfl | hp
      · exact h.1
      · exact ih h.2 p hp

/-- C8: on a strictly declining positive price series of at least two
points every daily return is negative, and the bootstrap risk
assessment returns a value at most 0 for every confidence level strictly
between 0 and 1. -/
theorem assess_declining_nonpos (l : List ℚ) (c : ℚ) (hlen : 2 ≤ l.length)
    (hpos : ∀ x ∈ l, 0 < x) (hdec : l.Chain' (fun a b => a > b))
    (hc0 : 0 < c) (hc1 : c < 1) :
    ∃ y, bootstrap_risk_assessment l c = some y ∧ y ≤ 0 := by
  obtain ⟨a, b, l2, rfl⟩ : ∃ a b l2, l = a :: b :: l2 := by
    cases l with
    | nil => simp at hlen
    | cons a l' =>
      cases l' with
      | nil => simp at hlen
      | cons b l2 => exact ⟨a, b, l2, rfl⟩
  have hall : ∀ x ∈ (pct_change (a :: b :: l2)).filterMap id, x ≤ 0 := by
    intro x hx
    rw [List.mem_filterMap] at hx
    obtain ⟨o, ho, hox⟩ := hx
    have ho' : o = some x := hox
    subst ho'
    rw [pct_change] at ho
    simp only [List.mem_cons] at ho
    rcases ho with ho | ho
    · cases ho
    · rw [List.mem_map] at ho
      obtain ⟨p, hp, hfp⟩ := ho
      have hp1 : 0 < p.1 := hpos p.1 (List.of_mem_zip hp).1
      rw [if_neg hp1.ne'] at hfp
      injection hfp with hfp
      have hgt : p.1 > p.2 := chain'_zip_tail hdec p hp
      have hdiv : p.2 / p.1 < 1 := (div_lt_one hp1).mpr hgt
      rw [← hfp]
      linarith
  have hne : (pct_change (a :: b :: l2)).filterMap id ≠ [] := by
    apply List.ne_nil_of_mem (a := b / a - 1)
    rw [List.mem_filterMap]
    refine ⟨some (b / a - 1), ?_, rfl⟩
    rw [pct_change]
    simp only [List.tail_cons, List.zip_cons_cons, List.map_cons, List.mem_cons]
    right
    left
    rw [if_neg (hpos a (by simp)).ne']
  rw [bootstrap_risk_assessment]
  exact quantile_nonpos _ (1 - c) (by linarith) hne hall

/-- C8 witness: the strictly declining series 2, 1 at confidence 1/2
assesses to a nonpositive value. -/
theorem assess_declining_nonpos_witness :
    ∃ y, bootstrap_risk_assessment [(2 : ℚ), 1] (1 / 2) = some y ∧ y ≤ 0 :=
  assess_declining_nonpos [2, 1] (1 / 2) (by norm_num)
    (by
      intro x hx
      simp only [List.mem_cons, List.not_mem_nil, or_false] at hx
      rcases hx with rfl | rfl <;> norm_num)
    (by
      rw [List.chain'_cons]
      exact ⟨by norm_num, List.chain'_singleton 1⟩)
    (by norm_num) (by norm_num)

/-! ## Theorems: fragment cleaning (C6) -/

/-- C6 counterexample: a two-row fragment without any trailer row;
clean_history still removes its last (real trading-day) row, so the
result is not the unchanged fragment. -/
theorem clean_history_not_identity_on_clean :
    (∀ r ∈ cleanFragment, is_trailer r = false) ∧
    clean_history cleanFragment ≠ indexed_by_date cleanFragment := by
  constructor
  · decide
  · decide

/-- C6 amended: the cleaning step is not the identity on already-clean
fragments; it unconditionally drops the structurally last row and keys
the remainder by date, so an already trailer-free fragment comes back
minus its final data row (one row shorter whenever it was nonempty). -/
theorem clean_history_drops_last_even_when_clean (rows : List RawRow)
    (hclean : ∀ r ∈ rows, is_trailer r = false) :
    clean_history rows = indexed_by_date rows.dropLast ∧
    (rows ≠ [] → (clean_history rows).length + 1 = rows.length) := by
  refine ⟨rfl, ?_⟩
  intro hne
  have hpos : 0 < rows.length := List.length_pos.mpr hne
  simp only [clean_history, List.length_map, List.length_dropLast]
  omega

/-- C6 amended witness: on the concrete trailer-free two-row fragment
the cleaning step returns the date-keyed fragment minus its last row. -/
theorem clean_history_drops_last_even_when_clean_witness :
    clean_history cleanFragment = indexed_by_date cleanFragment.dropLast ∧
    (cleanFragment ≠ [] → (clean_history cleanFragment).length + 1 = cleanFragment.length) :=
  clean_history_drops_last_even_when_clean cleanFragment (by decide)

/-! ## Theorems: fuzzy metadata search (C9) -/

theorem headD_append_of_ne_nil {α : Type} (d : α) (l2 : List α) :
    ∀ {l : List α}, l ≠ [] → (l ++ l2).headD d = l.headD d
  | [], h => absurd rfl h
  | _ :: _, _ => rfl

theorem foldl_search_step (fr : String → String → ℕ) (name : String) :
    ∀ (rows : List (List String)) (m : ℕ) (acc : List MatchEntry),
      acc ≠ [] → (acc.headD ⟨0, []⟩).score = m →
      rows.foldl (search_step fr name) acc =
        if max_score fr name rows ≤ m then
          acc ++ ((rows.filter fun r => row_score fr name r = m).map fun r => ⟨m, r⟩)
        else
          ((rows.filter fun r => row_score fr name r = max_score fr name rows).map
            fun r => ⟨max_score fr name rows, r⟩) := by
  intro rows
  induction rows with
  | nil =>
    intro m acc hne hm
    simp [max_score]
  | cons r rest ih =>
    intro m acc hne hm
    rw [List.foldl_cons]
    have hmax : max_score fr name (r :: rest) =
        max (row_score fr name r) (max_score fr name rest) := by
      simp [max_score]
    by_cases hgt : row_score fr name r > m
    · have hstep : search_step fr name acc r = [⟨row_score fr name r, r⟩] := by
        simp only [search_step, hm]
        rw [if_pos hgt]
      rw [hstep, ih (row_score fr name r) [⟨row_score fr name r, r⟩] (by simp) rfl]
      by_cases hM : max_score fr name rest ≤ row_score fr name r
      · rw [if_pos hM]
        have hmaxv : max_score fr name (r :: rest) = row_score fr name r := by
          rw [hmax]
          exact max_eq_left hM
        rw [hmaxv, if_neg (by omega)]
        rw [List.filter_cons_of_pos (by simp)]
        simp
      · push_neg at hM
        rw [if_neg (not_le.mpr hM)]
        have hmaxv : max_score fr name (r :: rest) = max_score fr name rest := by
          rw [hmax]
          exact max_eq_right hM.le
        rw [hmaxv, if_neg (by omega)]
        rw [List.filter_cons_of_neg (by simp; omega)]
    · by_cases heq : row_score fr name r = m
      · have hstep : search_step fr name acc r = acc ++ [⟨row_score fr name r, r⟩] := by
          simp only [search_step, hm]
          rw [if_neg hgt, if_pos heq]
        have hne2 : acc ++ [(⟨row_score fr name r, r⟩ : MatchEntry)] ≠ [] := by
          simp
        have hhead : ((acc ++ [(⟨row_score fr name r, r⟩ : MatchEntry)]).headD ⟨0, []⟩).score = m := by
          rw [headD_append_of_ne_nil _ _ hne]
          exact hm
        rw [hstep, ih m _ hne2 hhead]
        by_cases hM : max_score fr name rest ≤ m
        · rw [if_pos hM]
          have hcond : max_score fr name (r :: rest) ≤ m := by
            rw [hmax]
            omega
          rw [if_pos hcond]
          rw [List.filter_cons_of_pos (by simp [heq])]
          simp [heq, List.append_assoc]
        · push_neg at hM
          rw [if_neg (not_le.mpr hM)]
          have hmaxv : max_score fr name (r :: rest) = max_score fr name rest := by
            rw [hmax]
            omega
          rw [hmaxv, if_neg (not_le.mpr hM)]
          rw [List.filter_cons_of_neg (by simp; omega)]
      · have hlt : row_score fr name r < m := by omega
        have hstep : search_step fr name acc r = acc := by
          simp only [search_step, hm]
          rw [if_neg hgt, if_neg heq]
        rw [hstep, ih m acc hne hm]
        by_cases hM : max_score fr name rest ≤ m
        · rw [if_pos hM]
          have hcond : max_score fr name (r :: rest) ≤ m := by
            rw [hmax]
            omega
          rw [if_pos hcond]
          rw [List.filter_cons_of_neg (by simp [heq])]
        · push_neg at hM
          rw [if_neg (not_le.mpr hM)]
          have hmaxv : max_score fr name (r :: rest) = max_score fr name rest := by
            rw [hmax]
            omega
          rw [hmaxv, if_neg (not_le.mpr hM)]
          rw [List.filter_cons_of_neg (by simp; omega)]

/-- C9 counterexample: querying xyz against the table whose single data
row is named abc scores 0 everywhere, so the loop never replaces the
initial placeholder [0, []]; the returned list then contains an entry
whose row is not a data row of the table at all, refuting that
stock_search returns exactly the best-matching data rows. -/
theorem stock_search_keeps_placeholder :
    stock_search fuzzExact "xyz" sampleTable = [⟨0, []⟩, ⟨0, ["1", "abc"]⟩] ∧
    ([] : List String) ∉ sampleTable.drop 1 := by
  constructor
  · rfl
  · decide

/-- C9 amended: whenever some data row achieves a positive fuzzy score,
stock_search returns exactly the best-matching rows with ties preserved:
the entries are, in table order, precisely the data rows achieving the
maximum score, each carrying that maximum score.  (When the maximum over
the data rows is 0 — in particular when there are no data rows — the
initial placeholder entry with score 0 and an empty row survives at the
head of the returned list in addition to the tied rows.) -/
theorem stock_search_best_rows (fr : String → String → ℕ) (name : String)
    (table : List (List String))
    (hpos : 0 < max_score fr name (table.drop 1)) :
    stock_search fr name table =
      ((table.drop 1).filter
          (fun r => row_score fr name r = max_score fr name (table.drop 1))).map
        (fun r => ⟨max_score fr name (table.drop 1), r⟩) := by
  rw [stock_search]
  rw [foldl_search_step fr name (table.drop 1) 0 [⟨0, []⟩] (by simp) rfl]
  rw [if_neg (by omega)]

/-- C9 amended witness: querying abc against the table whose single data
row is named abc gives that row the maximal score 100, and stock_search
returns exactly that row with its score. -/
theorem stock_search_best_rows_witness :
    stock_search fuzzExact "abc" sampleTable =
      ((sampleTable.drop 1).filter
          (fun r => row_score fuzzExact "abc" r = max_score fuzzExact "abc" (sampleTable.drop 1))).map
        (fun r => ⟨max_score fuzzExact "abc" (sampleTable.drop 1), r⟩) :=
  stock_search_best_rows fuzzExact "abc" sampleTable (by decide)

end StockTrader
